/-
  Verification of the slowmedown audio pipeline (src/slowmedown.py).

  The three core transforms are embedded shallowly over exact arithmetic:

  * change_speed_preserve_pitch delegates to librosa.effects.time_stretch,
    which is an external library and not part of this repository; it is
    modelled from the spec (section 4.2: phase-vocoder stretcher).  The
    frequency-domain round trip (STFT, magnitude interpolation, phase
    accumulation, ISTFT) is represented on windowed time-domain frames: at
    integral frame positions the spectral step reproduces the analysis frame
    exactly, and fractional positions interpolate linearly between the two
    neighbouring frames.  The window is a parameter (the spec fixes only
    that some smooth window is used).  The documented rounding rule for the
    output length is round-to-nearest of inputLength / factor.
  * enhance_guitar_frequencies: the scipy Butterworth design of the
    second-order-section cascade is external; the cascade coefficients are
    a parameter, while the application (sosfilt, direct form II transposed,
    zero initial state), the 0.4 mix and the peak normalisation follow the
    code.  The design validity gate (band edges must lie strictly inside
    (0, Nyquist)) is modelled from the spec, section 4.1.  numpy.max raises
    on an empty array, modelled as an emptyInput error.
  * mono_to_stereo_effect: delay, scipy filtfilt (odd padding of length 9,
    steady-state initial conditions, forward and backward pass) and the
    channel gains are embedded exactly over the ring of numbers
    (a + b * sqrt 2) / 20 ^ e with integer a, b; the Butterworth lowpass at
    half Nyquist has exact coefficients in this ring.  Floating point
    rounding is idealised away: all arithmetic is exact.
-/
import Mathlib

/-- Error outcomes of the pipeline functions (python exceptions). -/
inductive PError where
  | invalidParameter
  | invalidSpec
  | emptyInput
  | tooShort
  | shapeMismatch
deriving DecidableEq, Repr

/-- Analysis frame size of the phase vocoder (librosa default n_fft). -/
def frameSize : ℕ := 2048

/-- Hop size, a quarter of the frame size. -/
def hopSize : ℕ := 512

/-- Sample access with zero padding past the tail (spec edge policy). -/
def sampleAt (s : List ℚ) (t : ℕ) : ℚ := s.getD t 0

/-- Windowed analysis frame k, offset i, of the phase vocoder. -/
def analysisFrame (w : ℕ → ℚ) (s : List ℚ) (k i : ℕ) : ℚ :=
  w i * sampleAt s (k * hopSize + i)

/-- Fractional input frame position feeding synthesis frame k at factor f. -/
def synthPos (f : ℚ) (k : ℕ) : ℚ := k * f

/-- Index of the analysis frame below the fractional position. -/
def synthBase (f : ℚ) (k : ℕ) : ℕ := (⌊synthPos f k⌋).toNat

/-- Interpolation weight towards the next analysis frame. -/
def synthFrac (f : ℚ) (k : ℕ) : ℚ := synthPos f k - (synthBase f k : ℚ)

/-- Modelled from the spec: synthesis frame k at factor f, interpolated
between the two analysis frames nearest to input position k * hop * f.
At integral positions this is exactly the analysis frame, which is what the
spectral round trip of the phase vocoder produces there. -/
def synthFrame (w : ℕ → ℚ) (s : List ℚ) (f : ℚ) (k i : ℕ) : ℚ :=
  (1 - synthFrac f k) * analysisFrame w s (synthBase f k) i
    + synthFrac f k * analysisFrame w s (synthBase f k + 1) i

/-- Modelled from the spec: output length of the stretcher, rounding the
ideal target inputLength / factor to the nearest sample. -/
def outLen (n : ℕ) (f : ℚ) : ℕ := (⌊(n : ℚ) / f + 1 / 2⌋).toNat

/-- Number of synthesis frames used to cover m output samples. -/
def coverFrames (m : ℕ) : ℕ := m / hopSize + 1

/-- Overlap-add numerator at output sample t: windowed synthesis frames. -/
def olaNum (w : ℕ → ℚ) (s : List ℚ) (f : ℚ) (kMax t : ℕ) : ℚ :=
  ∑ k ∈ Finset.range kMax,
    if k * hopSize ≤ t ∧ t - k * hopSize < frameSize then
      w (t - k * hopSize) * synthFrame w s f k (t - k * hopSize)
    else 0

/-- Overlap-add normaliser at output sample t: sum of squared window values. -/
def olaDen (w : ℕ → ℚ) (kMax t : ℕ) : ℚ :=
  ∑ k ∈ Finset.range kMax,
    if k * hopSize ≤ t ∧ t - k * hopSize < frameSize then w (t - k * hopSize) ^ 2 else 0

/-- Modelled from the spec: the stretched signal, via overlap-add of the
synthesis frames normalised by the summed squared window. -/
def stretchSignal (w : ℕ → ℚ) (s : List ℚ) (f : ℚ) : List ℚ :=
  (List.range (outLen s.length f)).map fun t =>
    olaNum w s f (coverFrames (outLen s.length f)) t
      / olaDen w (coverFrames (outLen s.length f)) t

/-- Modelled from the spec: librosa.effects.time_stretch is external to the
repository; it rejects a non-positive rate and otherwise produces the
stretched signal. -/
def time_stretch (w : ℕ → ℚ) (s : List ℚ) (f : ℚ) : Except PError (List ℚ) :=
  if f ≤ 0 then .error .invalidParameter else .ok (stretchSignal w s f)

/-- The function change_speed_preserve_pitch of src/slowmedown.py: delegates to
librosa.effects.time_stretch; the sample rate is accepted but not used. -/
def change_speed_preserve_pitch (w : ℕ → ℚ) (audio : List ℚ) (sr : ℕ) (speed : ℚ) :
    Except PError (List ℚ) :=
  time_stretch w audio speed

/-- One second-order section, coefficients normalised so that a0 = 1. -/
structure BQ (K : Type) where
  b0 : K
  b1 : K
  b2 : K
  a1 : K
  a2 : K

/-- One biquad pass in direct form II transposed with explicit state,
the evaluation scheme of scipy sosfilt and lfilter. -/
def biquad {K : Type} [Add K] [Mul K] [Sub K] (c : BQ K) : K → K → List K → List K
  | _, _, [] => []
  | z1, z2, u :: us =>
    let y := c.b0 * u + z1
    y :: biquad c (c.b1 * u - c.a1 * y + z2) (c.b2 * u - c.a2 * y) us

/-- scipy.signal.sosfilt: apply the cascade of sections in sequence, each
with zero initial state. -/
def sosfilt (sos : List (BQ ℚ)) (x : List ℚ) : List ℚ :=
  sos.foldl (fun acc c => biquad c 0 0 acc) x

/-- numpy.max of absolute values (0 on the empty list; the code never
reaches this on an empty signal, see enhance_guitar_frequencies). -/
def peak (l : List ℚ) : ℚ := l.foldr (fun x acc => max |x| acc) 0

/-- The mixing step of the enhancer: original plus 0.4 times filtered. -/
def mixSignal (sos : List (BQ ℚ)) (s : List ℚ) : List ℚ :=
  List.zipWith (fun a b => a + b * (2 / 5)) s (sosfilt sos s)

/-- Modelled from the spec: the Butterworth design (scipy.signal.butter,
external) accepts the band 60 to 5000 Hz only when both edges divided by
the Nyquist frequency lie strictly in (0, 1) and are ordered. -/
def bandValid (sr : ℕ) : Prop :=
  0 < (60 : ℚ) / ((sr : ℚ) / 2) ∧
    (60 : ℚ) / ((sr : ℚ) / 2) < (5000 : ℚ) / ((sr : ℚ) / 2) ∧
    (5000 : ℚ) / ((sr : ℚ) / 2) < 1

instance (sr : ℕ) : Decidable (bandValid sr) := by
  unfold bandValid; infer_instance

/-- The function enhance_guitar_frequencies of src/slowmedown.py: design the band filter
(validity gate modelled from the spec), filter, mix 0.4, and normalise the
peak when it exceeds 1.  The cascade coefficients are a parameter because
the numeric design lives in scipy. -/
def enhance_guitar_frequencies (sos : List (BQ ℚ)) (audio : List ℚ) (sr : ℕ) :
    Except PError (List ℚ) :=
  if bandValid sr then
    if audio = [] then .error .emptyInput
    else
      .ok (if 1 < peak (mixSignal sos audio) then
              (mixSignal sos audio).map (fun v => v / peak (mixSignal sos audio))
            else mixSignal sos audio)
  else .error .invalidSpec

/-- Exact scalar for the stereo widener: the value (a + b * sqrt 2) / 20 ^ e.
All numbers appearing in the widener (Butterworth coefficients at half
Nyquist, steady state initial conditions, gains 0.95 and 0.85, samples)
live in this ring, so the float pipeline is idealised exactly. -/
structure W where
  a : ℤ
  b : ℤ
  e : ℕ
deriving DecidableEq, Repr

/-- Addition on W after rescaling to the larger exponent. -/
def W.add (x y : W) : W :=
  ⟨x.a * 20 ^ (max x.e y.e - x.e) + y.a * 20 ^ (max x.e y.e - y.e),
   x.b * 20 ^ (max x.e y.e - x.e) + y.b * 20 ^ (max x.e y.e - y.e),
   max x.e y.e⟩

/-- Multiplication on W, using sqrt 2 * sqrt 2 = 2. -/
def W.mul (x y : W) : W :=
  ⟨x.a * y.a + 2 * x.b * y.b, x.a * y.b + x.b * y.a, x.e + y.e⟩

/-- Negation on W. -/
def W.neg (x : W) : W := ⟨-x.a, -x.b, x.e⟩

instance : Add W := ⟨W.add⟩
instance : Mul W := ⟨W.mul⟩
instance : Neg W := ⟨W.neg⟩
instance : Sub W := ⟨fun x y => x + -y⟩
instance : Zero W := ⟨⟨0, 0, 0⟩⟩
instance : One W := ⟨⟨1, 0, 0⟩⟩

/-- The real value denoted by an element of W. -/
noncomputable def W.val (x : W) : ℝ :=
  ((x.a : ℝ) + (x.b : ℝ) * Real.sqrt 2) / 20 ^ x.e

/-- Decidable sign test on W: whether the denoted value is nonnegative,
by a case split on the integer components and squaring. -/
def W.nonneg (x : W) : Prop :=
  (0 ≤ x.a ∧ 0 ≤ x.b) ∨ (0 ≤ x.a ∧ x.b < 0 ∧ 2 * x.b ^ 2 ≤ x.a ^ 2) ∨
    (x.a < 0 ∧ 0 ≤ x.b ∧ x.a ^ 2 ≤ 2 * x.b ^ 2)

instance (x : W) : Decidable (W.nonneg x) := by
  unfold W.nonneg; infer_instance

instance : LE W := ⟨fun x y => W.nonneg (y - x)⟩

instance (x y : W) : Decidable (x ≤ y) :=
  inferInstanceAs (Decidable (W.nonneg (y - x)))

/-- Absolute value on W. -/
def W.abs (x : W) : W := if W.nonneg x then x else -x

/-- Decidable test whether two elements of W denote the same real number. -/
def W.eqvb (x y : W) : Bool :=
  (x.a * 20 ^ y.e == y.a * 20 ^ x.e) && (x.b * 20 ^ y.e == y.b * 20 ^ x.e)

/-- Pointwise value equality of two sample lists, including length. -/
def weqList (l r : List W) : Bool :=
  l.length == r.length && (List.zip l r).all fun p => W.eqvb p.1 p.2

/-- The constant 2 in W, used by the odd extension. -/
def wtwo : W := ⟨2, 0, 0⟩

/-- Gain 0.95 of the left channel. -/
def cLeft : W := ⟨19, 0, 1⟩

/-- Gain 0.85 of the right channel. -/
def cRight : W := ⟨17, 0, 1⟩

/-- Modelled from the spec: exact coefficients of the scipy Butterworth
lowpass of order 2 at half Nyquist (iirfilter, external).  The bilinear
design gives b = [(2 - sqrt 2)/2, 2 - sqrt 2, (2 - sqrt 2)/2] and
a = [1, 0, 3 - 2 * sqrt 2]. -/
def lpButter : BQ W :=
  ⟨⟨20, -10, 1⟩, ⟨40, -20, 1⟩, ⟨20, -10, 1⟩, ⟨0, 0, 0⟩, ⟨60, -40, 1⟩⟩

/-- Modelled from the spec: scipy lfilter_zi steady state of lpButter,
first state component, sqrt 2 / 2. -/
def ziScale1 : W := ⟨0, 10, 1⟩

/-- Modelled from the spec: scipy lfilter_zi steady state of lpButter,
second state component, 3 * sqrt 2 / 2 - 2. -/
def ziScale2 : W := ⟨-40, 30, 1⟩

/-- scipy filtfilt odd extension with pad length 9: reflected and negated
copies around both end points. -/
def oddExt (x : List W) : List W :=
  ((List.range 9).map fun i => wtwo * x.headD 0 - x.getD (9 - i) 0)
    ++ x ++
    ((List.range 9).map fun i => wtwo * x.getLastD 0 - x.getD (x.length - 2 - i) 0)

/-- scipy.signal.filtfilt with the default settings the code uses:
odd padding of length 3 * max(len(a), len(b)) = 9, forward pass with
steady state scaled by the first extended sample, backward pass with
steady state scaled by the last forward output, then the centre slice. -/
def filtfilt (x : List W) : List W :=
  let ext := oddExt x
  let fwd := biquad lpButter (ziScale1 * ext.headD 0) (ziScale2 * ext.headD 0) ext
  let bwd := biquad lpButter (ziScale1 * fwd.getLastD 0) (ziScale2 * fwd.getLastD 0) fwd.reverse
  (bwd.reverse.drop 9).take x.length

/-- An in-memory numpy array: one dimensional, or two dimensional stored
row major (channel major). -/
inductive Audio where
  | mono : List W → Audio
  | multi : List (List W) → Audio
deriving DecidableEq, Repr

/-- The Haas delay in samples, int(0.015 * sr). -/
def delaySamples (sr : ℕ) : ℕ := 3 * sr / 200

/-- The function mono_to_stereo_effect of src/slowmedown.py.  A two-row input passes
through unchanged.  Any other multi-row input makes the numpy
concatenation fail (shape mismatch), modelled as an error.  On a mono
input: delay the right channel (the python slice audio[:-d] is empty when
d = 0), zero-phase lowpass it (filtfilt rejects signals not longer than
its pad length 9), scale the channels by 0.95 and 0.85, and stack; numpy
vstack fails when the channel lengths differ. -/
def mono_to_stereo_effect (sr : ℕ) : Audio → Except PError Audio
  | .multi rows => if rows.length = 2 then .ok (.multi rows) else .error .shapeMismatch
  | .mono s =>
    let d := delaySamples sr
    let delayed :=
      List.replicate d (0 : W) ++ (if d = 0 then [] else s.take (s.length - d))
    if delayed.length ≤ 9 then .error .tooShort
    else
      let left := s.map fun v => v * cLeft
      let right := (filtfilt delayed).map fun v => v * cRight
      if left.length = right.length then .ok (.multi [left, right])
      else .error .shapeMismatch

/-- The rows of a successful stereo result, empty otherwise. -/
def audioRows : Except PError Audio → List (List W)
  | .ok (.multi rows) => rows
  | _ => []

/-- First row of a successful stereo result. -/
def leftChannel (r : Except PError Audio) : List W := (audioRows r).getD 0 []

/-- Second row of a successful stereo result. -/
def rightChannel (r : Except PError Audio) : List W := (audioRows r).getD 1 []

/-- Whether the result is a successful two-row stereo frame. -/
def stereoShaped (r : Except PError Audio) : Bool := (audioRows r).length == 2

/-- A concrete adversarial input for the widener, 25 samples, all of
absolute value 1.  Its signs match the sign pattern of the zero-phase
impulse response of the lowpass around sample 12 of the delayed signal,
so the right channel overshoots there. -/
def sAdvInput : List W :=
  ([-1, 1, 1, 1, -1, 1, 1, 1, -1, 1, 1, 1, 1, 1, -1, 1, 1, 1, -1, 1, 1, 1, -1, 1, 1] :
      List ℤ).map fun n => ⟨n, 0, 0⟩

/-- A unit impulse of length 10. -/
def impulseInput : List W := 1 :: List.replicate 9 0

theorem stretchSignal_length (w : ℕ → ℚ) (s : List ℚ) (f : ℚ) :
    (stretchSignal w s f).length = outLen s.length f := by
  simp [stretchSignal]

theorem synthFrame_one (w : ℕ → ℚ) (s : List ℚ) (k i : ℕ) :
    synthFrame w s 1 k i = analysisFrame w s k i := by
  have hpos : synthPos 1 k = (k : ℚ) := by simp [synthPos]
  have hbase : synthBase 1 k = k := by
    simp [synthBase, hpos]
  have hfrac : synthFrac 1 k = 0 := by
    simp [synthFrac, hbase, hpos]
  simp [synthFrame, hfrac, hbase]

theorem olaNum_one (w : ℕ → ℚ) (s : List ℚ) (kMax t : ℕ) :
    olaNum w s 1 kMax t = olaDen w kMax t * sampleAt s t := by
  unfold olaNum olaDen
  rw [Finset.sum_mul]
  refine Finset.sum_congr rfl fun k _ => ?_
  by_cases h : k * hopSize ≤ t ∧ t - k * hopSize < frameSize
  · rw [if_pos h, if_pos h, synthFrame_one]
    unfold analysisFrame
    rw [Nat.add_sub_cancel' h.1]
    ring
  · rw [if_neg h, if_neg h, zero_mul]

theorem outLen_one (n : ℕ) : outLen n 1 = n := by
  unfold outLen
  have h0 : ⌊(1 : ℚ) / 2⌋ = 0 := by norm_num [Int.floor_eq_zero_iff]
  rw [div_one, add_comm, Int.floor_add_nat, h0, zero_add]
  exact Int.toNat_natCast n

theorem stretchSignal_one (w : ℕ → ℚ) (s : List ℚ)
    (h : ∀ t < s.length, olaDen w (coverFrames s.length) t ≠ 0) :
    stretchSignal w s 1 = s := by
  unfold stretchSignal
  rw [outLen_one]
  apply List.ext_getElem
  · simp
  · intro i h1 h2
    simp only [List.getElem_map, List.getElem_range]
    rw [olaNum_one, mul_div_cancel_left₀ _ (h i h2)]
    simp [sampleAt, List.getD_eq_getElem?_getD, List.getElem?_eq_getElem h2]

/-- C1: for every window, signal and factor f > 0 the stretcher succeeds and
the output length is within one frame size (indeed within half a sample) of
the ideal target length(s) / f. -/
theorem c1_stretch_length (w : ℕ → ℚ) (s : List ℚ) (sr : ℕ) (f : ℚ) (hf : 0 < f) :
    ∃ out, change_speed_preserve_pitch w s sr f = .ok out ∧
      |(out.length : ℚ) - (s.length : ℚ) / f| ≤ (frameSize : ℚ) := by
  refine ⟨stretchSignal w s f, ?_, ?_⟩
  · unfold change_speed_preserve_pitch time_stretch
    rw [if_neg (not_le.2 hf)]
  · rw [stretchSignal_length]
    have hx0 : 0 ≤ (s.length : ℚ) / f := div_nonneg (Nat.cast_nonneg _) hf.le
    have hfl : (0 : ℤ) ≤ ⌊(s.length : ℚ) / f + 1 / 2⌋ := Int.floor_nonneg.2 (by linarith)
    have key : ((outLen s.length f : ℕ) : ℤ) = ⌊(s.length : ℚ) / f + 1 / 2⌋ := by
      unfold outLen
      exact Int.toNat_of_nonneg hfl
    have keyq : ((outLen s.length f : ℕ) : ℚ) = ((⌊(s.length : ℚ) / f + 1 / 2⌋ : ℤ) : ℚ) := by
      exact_mod_cast key
    have h1 : ((⌊(s.length : ℚ) / f + 1 / 2⌋ : ℤ) : ℚ) ≤ (s.length : ℚ) / f + 1 / 2 :=
      Int.floor_le _
    have h2 : (s.length : ℚ) / f + 1 / 2 < ((⌊(s.length : ℚ) / f + 1 / 2⌋ : ℤ) : ℚ) + 1 :=
      Int.lt_floor_add_one _
    have hfs : ((frameSize : ℕ) : ℚ) = 2048 := by norm_num [frameSize]
    rw [keyq, abs_le, hfs]
    constructor <;> linarith

/-- Witness for C1 at factor 2 on a three-sample signal. -/
theorem c1_stretch_length_witness :
    (0 : ℚ) < 2 ∧ ∃ out, change_speed_preserve_pitch (fun _ => 1) [1, 0, 1] 22050 2 = .ok out ∧
      |(out.length : ℚ) - (([1, 0, 1] : List ℚ).length : ℚ) / 2| ≤ (frameSize : ℚ) :=
  ⟨by norm_num, c1_stretch_length (fun _ => 1) [1, 0, 1] 22050 2 (by norm_num)⟩

/-- C2: the stretcher fails with the invalid parameter error exactly when
the factor is not positive, and in that case it returns no output at all. -/
theorem c2_stretch_error_iff (w : ℕ → ℚ) (s : List ℚ) (sr : ℕ) (f : ℚ) :
    (change_speed_preserve_pitch w s sr f = .error .invalidParameter ↔ f ≤ 0) ∧
      (f ≤ 0 → ∀ out, change_speed_preserve_pitch w s sr f ≠ .ok out) := by
  unfold change_speed_preserve_pitch time_stretch
  constructor
  · by_cases h : f ≤ 0
    · simp [h]
    · simp [h]
  · intro h out
    simp [h]

/-- Witness for C2 at factor -1. -/
theorem c2_stretch_error_iff_witness :
    change_speed_preserve_pitch (fun _ => 1) [1] 22050 (-1) = .error .invalidParameter :=
  (c2_stretch_error_iff (fun _ => 1) [1] 22050 (-1)).1.mpr (by norm_num)

/-- C9: at factor 1 the stretcher returns the input exactly (so in
particular within any numerical tolerance), through the same overlap-add
path as any other factor; the only hypothesis is that the summed squared
window does not vanish on the support of the output. -/
theorem c9_stretch_identity (w : ℕ → ℚ) (s : List ℚ) (sr : ℕ)
    (h : ∀ t < s.length, olaDen w (coverFrames s.length) t ≠ 0) :
    change_speed_preserve_pitch w s sr 1 = .ok s := by
  unfold change_speed_preserve_pitch time_stretch
  rw [if_neg (by norm_num)]
  exact congrArg Except.ok (stretchSignal_one w s h)

/-- Witness for C9 on a three-sample signal with the constant window. -/
theorem c9_stretch_identity_witness :
    (∀ t < ([1 / 2, 1 / 3, 1 / 4] : List ℚ).length,
        olaDen (fun _ => 1) (coverFrames ([1 / 2, 1 / 3, 1 / 4] : List ℚ).length) t ≠ 0) ∧
      change_speed_preserve_pitch (fun _ => 1) [1 / 2, 1 / 3, 1 / 4] 22050 1 =
        .ok [1 / 2, 1 / 3, 1 / 4] := by
  have hden : ∀ t < ([1 / 2, 1 / 3, 1 / 4] : List ℚ).length,
      olaDen (fun _ => 1) (coverFrames ([1 / 2, 1 / 3, 1 / 4] : List ℚ).length) t ≠ 0 := by
    intro t ht
    have ht3 : t < 3 := by simpa using ht
    have hc : coverFrames ([1 / 2, 1 / 3, 1 / 4] : List ℚ).length = 1 := by
      norm_num [coverFrames, hopSize]
    rw [hc]
    unfold olaDen
    rw [Finset.sum_range_one]
    have hcond : 0 * hopSize ≤ t ∧ t - 0 * hopSize < frameSize := by
      constructor
      · omega
      · unfold frameSize; omega
    rw [if_pos hcond]
    norm_num
  exact ⟨hden, c9_stretch_identity (fun _ => 1) [1 / 2, 1 / 3, 1 / 4] 22050 hden⟩

theorem peak_cons (a : ℚ) (l : List ℚ) : peak (a :: l) = max |a| (peak l) := rfl

theorem peak_nonneg (l : List ℚ) : 0 ≤ peak l := by
  induction l with
  | nil => simp [peak]
  | cons a l ih => rw [peak_cons]; exact le_trans ih (le_max_right _ _)

theorem le_peak {x : ℚ} {l : List ℚ} (hx : x ∈ l) : |x| ≤ peak l := by
  induction l with
  | nil => cases hx
  | cons a l ih =>
    rw [peak_cons]
    rcases List.mem_cons.1 hx with h | h
    · subst h; exact le_max_left _ _
    · exact le_trans (ih h) (le_max_right _ _)

theorem peak_map_div (l : List ℚ) {m : ℚ} (hm : 0 < m) :
    peak (l.map fun v => v / m) = peak l / m := by
  induction l with
  | nil => simp [peak]
  | cons a l ih =>
    simp only [List.map_cons, peak_cons, ih]
    rw [abs_div, abs_of_pos hm, max_div_div_right hm.le]

theorem bandValid_iff (sr : ℕ) : bandValid sr ↔ 10000 < sr := by
  unfold bandValid
  rcases Nat.eq_zero_or_pos sr with h0 | hpos
  · subst h0; norm_num
  · have hq : (0 : ℚ) < sr := by exact_mod_cast hpos
    have h2 : (0 : ℚ) < (sr : ℚ) / 2 := by linarith
    constructor
    · rintro ⟨-, -, h3⟩
      rw [div_lt_one h2] at h3
      exact_mod_cast (by linarith : (10000 : ℚ) < sr)
    · intro h
      have hq2 : (10000 : ℚ) < sr := by exact_mod_cast h
      refine ⟨div_pos (by norm_num) h2, ?_, ?_⟩
      · exact (div_lt_div_iff_of_pos_right h2).2 (by norm_num)
      · rw [div_lt_one h2]; linarith

/-- C10: for every sample rate at most 10000 Hz the enhancer fails with the
design rejection error on every input signal and every cascade, because the
upper band edge 5000 Hz reaches or exceeds the Nyquist frequency. -/
theorem c10_enhance_low_rate (sos : List (BQ ℚ)) (audio : List ℚ) (sr : ℕ)
    (h : sr ≤ 10000) :
    enhance_guitar_frequencies sos audio sr = .error .invalidSpec := by
  unfold enhance_guitar_frequencies
  rw [if_neg (by rw [bandValid_iff]; omega)]

/-- Witness for C10 at sample rate 8000. -/
theorem c10_enhance_low_rate_witness :
    8000 ≤ 10000 ∧
      enhance_guitar_frequencies [⟨1, 0, 0, 0, 0⟩] [1, -1] 8000 = .error .invalidSpec :=
  ⟨by norm_num, c10_enhance_low_rate [⟨1, 0, 0, 0, 0⟩] [1, -1] 8000 (by norm_num)⟩

/-- C3 fails as stated: at sample rate 100 the enhancer raises the design
rejection error instead of returning the mixed signal. -/
theorem c3_enhance_mix_counterexample :
    enhance_guitar_frequencies [⟨1, 0, 0, 0, 0⟩] [1 / 2] 100 = .error .invalidSpec := by
  unfold enhance_guitar_frequencies
  rw [if_neg (by rw [bandValid_iff]; omega)]

/-- C3 (amended): for every cascade, every sample rate above 10000 Hz and
every nonempty signal, the enhancer returns original + 0.4 times filtered;
when the peak of that mix exceeds 1 the whole signal is divided by the
peak, making the new peak exactly 1, and otherwise it is returned
untouched. -/
theorem c3_enhance_mix (sos : List (BQ ℚ)) (audio : List ℚ) (sr : ℕ)
    (hsr : 10000 < sr) (hne : audio ≠ []) :
    (peak (mixSignal sos audio) ≤ 1 →
        enhance_guitar_frequencies sos audio sr = .ok (mixSignal sos audio)) ∧
      (1 < peak (mixSignal sos audio) →
        enhance_guitar_frequencies sos audio sr =
            .ok ((mixSignal sos audio).map fun v => v / peak (mixSignal sos audio)) ∧
          peak ((mixSignal sos audio).map fun v => v / peak (mixSignal sos audio)) = 1) := by
  have hv : bandValid sr := (bandValid_iff sr).2 hsr
  constructor
  · intro hp
    unfold enhance_guitar_frequencies
    rw [if_pos hv, if_neg hne, if_neg (not_lt.2 hp)]
  · intro hp
    have hm : (0 : ℚ) < peak (mixSignal sos audio) := lt_trans zero_lt_one hp
    constructor
    · unfold enhance_guitar_frequencies
      rw [if_pos hv, if_neg hne, if_pos hp]
    · rw [peak_map_div _ hm, div_self hm.ne']

/-- Witness for C3 on a one-sample signal whose mix peaks above 1. -/
theorem c3_enhance_mix_witness :
    ((10000 : ℕ) < 20000 ∧ ([1] : List ℚ) ≠ [] ∧ 1 < peak (mixSignal [] [1])) ∧
      enhance_guitar_frequencies [] [1] 20000 =
        .ok ((mixSignal [] [1]).map fun v => v / peak (mixSignal [] [1])) := by
  have hp : 1 < peak (mixSignal [] [1]) := by
    norm_num [mixSignal, sosfilt, peak_cons, peak, abs_of_pos]
  exact ⟨⟨by norm_num, by simp, hp⟩,
    ((c3_enhance_mix [] [1] 20000 (by norm_num) (by simp)).2 hp).1⟩

/-- C4: every sample of a successful enhancer output has absolute value at
most 1. -/
theorem c4_enhance_bounded (sos : List (BQ ℚ)) (audio : List ℚ) (sr : ℕ) (out : List ℚ)
    (hok : enhance_guitar_frequencies sos audio sr = .ok out) :
    ∀ x ∈ out, |x| ≤ 1 := by
  unfold enhance_guitar_frequencies at hok
  by_cases hv : bandValid sr
  · rw [if_pos hv] at hok
    by_cases hne : audio = []
    · rw [if_pos hne] at hok; cases hok
    · rw [if_neg hne] at hok
      have hout := Except.ok.inj hok
      by_cases hp : 1 < peak (mixSignal sos audio)
      · rw [if_pos hp] at hout
        subst hout
        intro x hx
        rcases List.mem_map.1 hx with ⟨y, hy, rfl⟩
        have hm : (0 : ℚ) < peak (mixSignal sos audio) := lt_trans zero_lt_one hp
        rw [abs_div, abs_of_pos hm, div_le_one hm]
        exact le_peak hy
      · rw [if_neg hp] at hout
        subst hout
        intro x hx
        exact le_trans (le_peak hx) (not_lt.1 hp)
  · rw [if_neg hv] at hok; cases hok

/-- Witness for C4 on a concrete successful run. -/
theorem c4_enhance_bounded_witness :
    enhance_guitar_frequencies [] [1 / 2] 20000 = .ok [7 / 10] ∧
      ∀ x ∈ ([7 / 10] : List ℚ), |x| ≤ 1 := by
  have hok : enhance_guitar_frequencies [] [1 / 2] 20000 = .ok [7 / 10] := by
    unfold enhance_guitar_frequencies
    rw [if_pos ((bandValid_iff 20000).2 (by norm_num)), if_neg (by simp)]
    norm_num [mixSignal, sosfilt, peak_cons, peak, abs_of_pos]
  exact ⟨hok, c4_enhance_bounded [] [1 / 2] 20000 [7 / 10] hok⟩

theorem W.val_resc (x : W) (E : ℕ) (h : x.e ≤ E) :
    W.val x =
      (((x.a * 20 ^ (E - x.e) : ℤ) : ℝ) + ((x.b * 20 ^ (E - x.e) : ℤ) : ℝ) * Real.sqrt 2) /
        20 ^ E := by
  unfold W.val
  have hp : ((20 : ℝ)) ^ (E - x.e) * 20 ^ x.e = 20 ^ E := pow_sub_mul_pow 20 h
  push_cast
  rw [div_eq_div_iff (by positivity) (by positivity)]
  linear_combination (-((x.a : ℝ) + (x.b : ℝ) * Real.sqrt 2)) * hp

theorem W.val_add (x y : W) : W.val (x + y) = W.val x + W.val y := by
  rw [W.val_resc x (max x.e y.e) (le_max_left _ _),
    W.val_resc y (max x.e y.e) (le_max_right _ _)]
  show W.val (W.add x y) = _
  unfold W.val W.add
  push_cast
  rw [div_add_div_same]
  ring_nf

theorem W.val_neg (x : W) : W.val (-x) = -W.val x := by
  show W.val (W.neg x) = _
  unfold W.val W.neg
  push_cast
  ring

theorem W.val_sub (x y : W) : W.val (x - y) = W.val x - W.val y := by
  show W.val (x + -y) = _
  rw [W.val_add, W.val_neg]
  ring

theorem W.val_mul (x y : W) : W.val (x * y) = W.val x * W.val y := by
  show W.val (W.mul x y) = _
  unfold W.val W.mul
  have hs : Real.sqrt 2 * Real.sqrt 2 = 2 := Real.mul_self_sqrt (by norm_num)
  push_cast
  rw [div_mul_div_comm, ← pow_add]
  rw [div_eq_div_iff (by positivity) (by positivity)]
  linear_combination (-(x.b : ℝ) * (y.b : ℝ) * 20 ^ x.e * 20 ^ y.e) * hs

theorem W.val_zero : W.val 0 = 0 := by
  show W.val ⟨0, 0, 0⟩ = 0
  unfold W.val
  norm_num

theorem W.val_one : W.val 1 = 1 := by
  show W.val ⟨1, 0, 0⟩ = 1
  unfold W.val
  norm_num

theorem W.nonneg_iff (x : W) : W.nonneg x ↔ 0 ≤ W.val x := by
  have h20 : (0 : ℝ) < 20 ^ x.e := by positivity
  have hs2 : (0 : ℝ) ≤ Real.sqrt 2 := Real.sqrt_nonneg 2
  have hs : Real.sqrt 2 * Real.sqrt 2 = 2 := Real.mul_self_sqrt (by norm_num)
  unfold W.val W.nonneg
  rw [le_div_iff h20, zero_mul]
  constructor
  · rintro (⟨ha, hb⟩ | ⟨ha, hb, hsq⟩ | ⟨ha, hb, hsq⟩)
    · have ha2 : (0 : ℝ) ≤ (x.a : ℝ) := by exact_mod_cast ha
      have hb2 : (0 : ℝ) ≤ (x.b : ℝ) := by exact_mod_cast hb
      exact add_nonneg ha2 (mul_nonneg hb2 hs2)
    · have ha2 : (0 : ℝ) ≤ (x.a : ℝ) := by exact_mod_cast ha
      have hb2 : ((x.b : ℝ)) < 0 := by exact_mod_cast hb
      have hsq2 : 2 * (x.b : ℝ) ^ 2 ≤ (x.a : ℝ) ^ 2 := by exact_mod_cast hsq
      by_contra hlt
      push_neg at hlt
      have h1 : (x.a : ℝ) < -(x.b : ℝ) * Real.sqrt 2 := by linarith
      have h3 := mul_self_lt_mul_self ha2 h1
      have h4 : (-(x.b : ℝ) * Real.sqrt 2) * (-(x.b : ℝ) * Real.sqrt 2) = 2 * (x.b : ℝ) ^ 2 := by
        linear_combination ((x.b : ℝ) ^ 2) * hs
      nlinarith [h3, h4, hsq2]
    · have ha2 : ((x.a : ℝ)) < 0 := by exact_mod_cast ha
      have hb2 : (0 : ℝ) ≤ (x.b : ℝ) := by exact_mod_cast hb
      have hsq2 : (x.a : ℝ) ^ 2 ≤ 2 * (x.b : ℝ) ^ 2 := by exact_mod_cast hsq
      by_contra hlt
      push_neg at hlt
      have h1 : (x.b : ℝ) * Real.sqrt 2 < -(x.a : ℝ) := by linarith
      have h2 : (0 : ℝ) ≤ (x.b : ℝ) * Real.sqrt 2 := mul_nonneg hb2 hs2
      have h3 := mul_self_lt_mul_self h2 h1
      have h4 : ((x.b : ℝ) * Real.sqrt 2) * ((x.b : ℝ) * Real.sqrt 2) = 2 * (x.b : ℝ) ^ 2 := by
        linear_combination ((x.b : ℝ) ^ 2) * hs
      nlinarith [h3, h4, hsq2]
  · intro h
    rcases le_or_lt 0 x.a with ha | ha <;> rcases le_or_lt 0 x.b with hb | hb
    · exact Or.inl ⟨ha, hb⟩
    · refine Or.inr (Or.inl ⟨ha, hb, ?_⟩)
      have ha2 : (0 : ℝ) ≤ (x.a : ℝ) := by exact_mod_cast ha
      have hb2 : ((x.b : ℝ)) < 0 := by exact_mod_cast hb
      have h1 : (-(x.b : ℝ)) * Real.sqrt 2 ≤ (x.a : ℝ) := by linarith
      have h2 : (0 : ℝ) ≤ (-(x.b : ℝ)) * Real.sqrt 2 := mul_nonneg (by linarith) hs2
      have h3 := mul_self_le_mul_self h2 h1
      have h4 : ((-(x.b : ℝ)) * Real.sqrt 2) * ((-(x.b : ℝ)) * Real.sqrt 2) = 2 * (x.b : ℝ) ^ 2 := by
        linear_combination ((x.b : ℝ) ^ 2) * hs
      have h5 : 2 * (x.b : ℝ) ^ 2 ≤ (x.a : ℝ) ^ 2 := by nlinarith [h3, h4]
      exact_mod_cast h5
    · refine Or.inr (Or.inr ⟨ha, hb, ?_⟩)
      have ha2 : ((x.a : ℝ)) < 0 := by exact_mod_cast ha
      have hb2 : (0 : ℝ) ≤ (x.b : ℝ) := by exact_mod_cast hb
      have h1 : -(x.a : ℝ) ≤ (x.b : ℝ) * Real.sqrt 2 := by linarith
      have h2 : (0 : ℝ) ≤ -(x.a : ℝ) := by linarith
      have h3 := mul_self_le_mul_self h2 h1
      have h4 : ((x.b : ℝ) * Real.sqrt 2) * ((x.b : ℝ) * Real.sqrt 2) = 2 * (x.b : ℝ) ^ 2 := by
        linear_combination ((x.b : ℝ) ^ 2) * hs
      have h5 : (x.a : ℝ) ^ 2 ≤ 2 * (x.b : ℝ) ^ 2 := by nlinarith [h3, h4]
      exact_mod_cast h5
    · exfalso
      have ha2 : ((x.a : ℝ)) < 0 := by exact_mod_cast ha
      have hb2 : ((x.b : ℝ)) < 0 := by exact_mod_cast hb
      nlinarith [mul_nonneg (le_of_lt (neg_pos.2 hb2)) hs2]

theorem W.le_iff (x y : W) : x ≤ y ↔ W.val x ≤ W.val y := by
  show W.nonneg (y - x) ↔ _
  rw [W.nonneg_iff, W.val_sub, sub_nonneg]

theorem W.val_abs (x : W) : W.val (W.abs x) = |W.val x| := by
  unfold W.abs
  by_cases h : W.nonneg x
  · rw [if_pos h, abs_of_nonneg ((W.nonneg_iff x).1 h)]
  · rw [if_neg h, W.val_neg,
      abs_of_neg (lt_of_not_ge fun hc => h ((W.nonneg_iff x).2 hc))]

theorem W.abs_le_one_iff (x : W) : W.abs x ≤ 1 ↔ |W.val x| ≤ 1 := by
  rw [W.le_iff, W.val_abs, W.val_one]

theorem int_add_sqrt_two_eq_zero {p q : ℤ} (h : (p : ℝ) + (q : ℝ) * Real.sqrt 2 = 0) :
    p = 0 ∧ q = 0 := by
  by_cases hq : q = 0
  · subst hq
    refine ⟨?_, rfl⟩
    have : (p : ℝ) = 0 := by simpa using h
    exact_mod_cast this
  · exfalso
    have hq2 : ((q : ℝ)) ≠ 0 := by exact_mod_cast hq
    have hval : Real.sqrt 2 = (((-p : ℚ) / (q : ℚ) : ℚ) : ℝ) := by
      push_cast
      rw [eq_div_iff hq2]
      linarith [h]
    exact irrational_sqrt_two ⟨(-p : ℚ) / (q : ℚ), hval.symm⟩

theorem W.eqvb_iff (x y : W) : W.eqvb x y = true ↔ W.val x = W.val y := by
  unfold W.eqvb W.val
  rw [Bool.and_eq_true, beq_iff_eq, beq_iff_eq,
    div_eq_div_iff (by positivity) (by positivity)]
  constructor
  · rintro ⟨h1, h2⟩
    have h1r : ((x.a : ℝ)) * 20 ^ y.e = (y.a : ℝ) * 20 ^ x.e := by exact_mod_cast h1
    have h2r : ((x.b : ℝ)) * 20 ^ y.e = (y.b : ℝ) * 20 ^ x.e := by exact_mod_cast h2
    linear_combination h1r + Real.sqrt 2 * h2r
  · intro h
    have key := int_add_sqrt_two_eq_zero
      (p := x.a * 20 ^ y.e - y.a * 20 ^ x.e) (q := x.b * 20 ^ y.e - y.b * 20 ^ x.e)
      (by push_cast; linear_combination h)
    constructor
    · have := key.1; omega
    · have := key.2; omega

theorem weqList_iff (l r : List W) :
    weqList l r = true ↔
      l.length = r.length ∧ ∀ i, W.val (l.getD i 0) = W.val (r.getD i 0) := by
  induction l generalizing r with
  | nil =>
    cases r with
    | nil => simp [weqList]
    | cons b rs => simp [weqList]
  | cons a ls ih =>
    cases r with
    | nil => simp [weqList]
    | cons b rs =>
      constructor
      · intro h
        have h1 : W.eqvb a b = true ∧ weqList ls rs = true := by
          have hx := h
          unfold weqList at hx
          rw [Bool.and_eq_true] at hx
          unfold weqList
          rw [Bool.and_eq_true]
          simp only [List.zip_cons_cons, List.all_cons, Bool.and_eq_true] at hx
          refine ⟨hx.2.1, ?_, hx.2.2⟩
          have := hx.1
          simp only [List.length_cons, beq_iff_eq] at this
          simp only [beq_iff_eq]
          omega
        have h2 := ih rs |>.1 h1.2
        refine ⟨by simp [h2.1], fun i => ?_⟩
        cases i with
        | zero => simpa using (W.eqvb_iff a b).1 h1.1
        | succ j => simpa using h2.2 j
      · rintro ⟨hlen, hval⟩
        have hlen2 : ls.length = rs.length := by simpa using hlen
        have hval2 : ∀ i, W.val (ls.getD i 0) = W.val (rs.getD i 0) := fun i => by
          simpa using hval (i + 1)
        have htail := (ih rs).2 ⟨hlen2, hval2⟩
        have hhead : W.eqvb a b = true := (W.eqvb_iff a b).2 (by simpa using hval 0)
        unfold weqList at htail ⊢
        rw [Bool.and_eq_true] at htail ⊢
        simp only [List.zip_cons_cons, List.all_cons, Bool.and_eq_true]
        refine ⟨?_, hhead, htail.2⟩
        simp only [List.length_cons, beq_iff_eq]
        omega

theorem biquad_length {K : Type} [Add K] [Mul K] [Sub K] (c : BQ K) (z1 z2 : K) (x : List K) :
    (biquad c z1 z2 x).length = x.length := by
  induction x generalizing z1 z2 with
  | nil => rfl
  | cons u us ih => simp [biquad, ih]

theorem oddExt_length (x : List W) : (oddExt x).length = x.length + 18 := by
  simp [oddExt]
  omega

theorem filtfilt_length (x : List W) : (filtfilt x).length = x.length := by
  unfold filtfilt
  simp [biquad_length, oddExt_length]

theorem widen_mono_eq (sr : ℕ) (s : List W) (hd : delaySamples sr ≠ 0)
    (hds : delaySamples sr ≤ s.length) (hlen : 10 ≤ s.length) :
    mono_to_stereo_effect sr (.mono s) =
      .ok (.multi [s.map fun v => v * cLeft,
        (filtfilt (List.replicate (delaySamples sr) (0 : W) ++
            s.take (s.length - delaySamples sr))).map fun v => v * cRight]) := by
  have hdl : (List.replicate (delaySamples sr) (0 : W) ++
      s.take (s.length - delaySamples sr)).length = s.length := by
    simp only [List.length_append, List.length_replicate, List.length_take]
    omega
  simp only [mono_to_stereo_effect]
  rw [if_neg hd]
  rw [if_neg (by rw [hdl]; omega)]
  rw [if_pos]
  simp only [List.length_map, filtfilt_length, hdl]

/-- C5 fails as stated: on a one-sample signal at sample rate 67 the
widener raises the filtfilt pad length error instead of producing the
described stereo pair. -/
theorem c5_widen_counterexample :
    mono_to_stereo_effect 67 (.mono [1]) = .error .tooShort := rfl

/-- C5 (amended): whenever the Haas delay is at least one sample, the
input is at least 10 samples long (the filtfilt pad length bound) and at
least as long as the delay, the widener returns left = input scaled by
0.95 and right = the zero-head delayed, tail truncated input passed
through the zero-phase half-Nyquist Butterworth lowpass and scaled by
0.85. -/
theorem c5_widen_channels (sr : ℕ) (s : List W) (hd : delaySamples sr ≠ 0)
    (hds : delaySamples sr ≤ s.length) (hlen : 10 ≤ s.length) :
    mono_to_stereo_effect sr (.mono s) =
      .ok (.multi [s.map fun v => v * cLeft,
        (filtfilt (List.replicate (delaySamples sr) (0 : W) ++
            s.take (s.length - delaySamples sr))).map fun v => v * cRight]) :=
  widen_mono_eq sr s hd hds hlen

/-- Witness for C5 on ten unit samples at sample rate 67. -/
theorem c5_widen_channels_witness :
    (delaySamples 67 ≠ 0 ∧ delaySamples 67 ≤ (List.replicate 10 (1 : W)).length ∧
        10 ≤ (List.replicate 10 (1 : W)).length) ∧
      mono_to_stereo_effect 67 (.mono (List.replicate 10 (1 : W))) =
        .ok (.multi [(List.replicate 10 (1 : W)).map fun v => v * cLeft,
          (filtfilt (List.replicate (delaySamples 67) (0 : W) ++
              (List.replicate 10 (1 : W)).take
                ((List.replicate 10 (1 : W)).length - delaySamples 67))).map
            fun v => v * cRight]) :=
  ⟨⟨by decide, by decide, by decide⟩,
    c5_widen_channels 67 (List.replicate 10 (1 : W)) (by decide) (by decide) (by decide)⟩

theorem widen_mono_ok (sr : ℕ) (s : List W) (a : Audio)
    (h : mono_to_stereo_effect sr (.mono s) = .ok a) : ∃ l r, a = .multi [l, r] := by
  simp only [mono_to_stereo_effect] at h
  repeat' split at h
  all_goals
    first
      | exact ⟨_, _, (Except.ok.inj h).symm⟩
      | exact absurd h (by simp)

set_option maxRecDepth 400000 in
/-- C6 fails as stated: the all-zero ten-sample input at rate 67 succeeds
and the two channels are value-equal (both identically zero), so the left
and right channels of the widener need not differ. -/
theorem c6_widen_counterexample :
    stereoShaped (mono_to_stereo_effect 67 (.mono (List.replicate 10 (0 : W)))) = true ∧
      weqList (leftChannel (mono_to_stereo_effect 67 (.mono (List.replicate 10 (0 : W)))))
        (rightChannel (mono_to_stereo_effect 67 (.mono (List.replicate 10 (0 : W))))) = true := by
  decide

set_option maxRecDepth 400000 in
/-- C6 (amended): under the success conditions (delay at least one sample,
input at least 10 samples and at least as long as the delay) the widener
returns a two-row stereo frame whose channels both have exactly the input
length; the channels differ in value for some such inputs (a unit
impulse), though not for all of them. -/
theorem c6_widen_shape (sr : ℕ) (s : List W) (hd : delaySamples sr ≠ 0)
    (hds : delaySamples sr ≤ s.length) (hlen : 10 ≤ s.length) :
    (∃ l r, mono_to_stereo_effect sr (.mono s) = .ok (.multi [l, r]) ∧
        l.length = s.length ∧ r.length = s.length) ∧
      weqList (leftChannel (mono_to_stereo_effect 67 (.mono impulseInput)))
        (rightChannel (mono_to_stereo_effect 67 (.mono impulseInput))) = false := by
  constructor
  · refine ⟨_, _, widen_mono_eq sr s hd hds hlen, ?_, ?_⟩
    · simp
    · simp only [List.length_map, filtfilt_length, List.length_append,
        List.length_replicate, List.length_take]
      omega
  · decide

/-- Witness for C6 on ten unit samples at sample rate 67. -/
theorem c6_widen_shape_witness :
    (delaySamples 67 ≠ 0 ∧ delaySamples 67 ≤ (List.replicate 10 (1 : W)).length ∧
        10 ≤ (List.replicate 10 (1 : W)).length) ∧
      ∃ l r, mono_to_stereo_effect 67 (.mono (List.replicate 10 (1 : W))) =
          .ok (.multi [l, r]) ∧
        l.length = (List.replicate 10 (1 : W)).length ∧
        r.length = (List.replicate 10 (1 : W)).length :=
  ⟨⟨by decide, by decide, by decide⟩,
    (c6_widen_shape 67 (List.replicate 10 (1 : W)) (by decide) (by decide) (by decide)).1⟩

/-- C7: a two-row input passes through the widener unchanged, and composing
the widener with itself on a mono input changes nothing beyond the first
application (also when the first application fails, since the failure
propagates). -/
theorem c7_widen_idempotent (sr : ℕ) :
    (∀ rows : List (List W), rows.length = 2 →
        mono_to_stereo_effect sr (.multi rows) = .ok (.multi rows)) ∧
      ∀ s : List W,
        mono_to_stereo_effect sr (.mono s) >>= mono_to_stereo_effect sr =
          mono_to_stereo_effect sr (.mono s) := by
  constructor
  · intro rows h2
    simp only [mono_to_stereo_effect]
    rw [if_pos h2]
  · intro s
    cases hw : mono_to_stereo_effect sr (.mono s) with
    | error e => rfl
    | ok a =>
      rcases widen_mono_ok sr s a hw with ⟨l, r, rfl⟩
      show mono_to_stereo_effect sr (.multi [l, r]) = Except.ok (Audio.multi [l, r])
      simp only [mono_to_stereo_effect]
      rw [if_pos (by simp : ([l, r] : List (List W)).length = 2)]

/-- Witness for C7 on a concrete two-row frame. -/
theorem c7_widen_idempotent_witness :
    ([[(1 : W)], [(0 : W)]] : List (List W)).length = 2 ∧
      mono_to_stereo_effect 44100 (.multi [[(1 : W)], [(0 : W)]]) =
        .ok (.multi [[(1 : W)], [(0 : W)]]) :=
  ⟨rfl, (c7_widen_idempotent 44100).1 [[(1 : W)], [(0 : W)]] rfl⟩

/-- C8 (amended): for every mono input whose samples lie within [-1, 1],
every sample of the left channel of the widener has absolute value at most
1; the right channel can exceed 1 (see the counterexample). -/
theorem c8_widen_left_bounded (sr : ℕ) (s : List W)
    (hin : ∀ x ∈ s, W.abs x ≤ 1) :
    ∀ y ∈ leftChannel (mono_to_stereo_effect sr (.mono s)), W.abs y ≤ 1 := by
  intro y hy
  have key : ∀ v : W, W.abs v ≤ 1 → W.abs (v * cLeft) ≤ 1 := by
    intro v h
    have h1 : |W.val v| ≤ 1 := (W.abs_le_one_iff v).1 h
    rw [W.abs_le_one_iff, W.val_mul]
    have hc : W.val cLeft = 19 / 20 := by
      unfold W.val cLeft
      norm_num
    rw [hc, abs_mul, abs_of_pos (by norm_num : (0 : ℝ) < 19 / 20)]
    nlinarith [abs_nonneg (W.val v)]
  simp only [mono_to_stereo_effect] at hy
  repeat' split at hy
  all_goals simp only [leftChannel, audioRows] at hy
  all_goals
    first
      | (rcases List.mem_map.1 (by simpa using hy) with ⟨v, hv, rfl⟩
         exact key v (hin v hv))
      | exact absurd hy (by simp)

set_option maxRecDepth 1000000 in
/-- C8 fails as stated: a concrete 25-sample input, every sample of
absolute value exactly 1, drives a right-channel sample of the widener to
about 1.026 in absolute value, beyond 1. -/
theorem c8_widen_counterexample :
    (∀ x ∈ sAdvInput, W.abs x ≤ 1) ∧
      ¬ ∀ y ∈ rightChannel (mono_to_stereo_effect 67 (.mono sAdvInput)), W.abs y ≤ 1 := by
  decide

/-- Witness for C8 on ten unit samples at sample rate 67. -/
theorem c8_widen_left_bounded_witness :
    (∀ x ∈ List.replicate 10 (1 : W), W.abs x ≤ 1) ∧
      ∀ y ∈ leftChannel (mono_to_stereo_effect 67 (.mono (List.replicate 10 (1 : W)))),
        W.abs y ≤ 1 :=
  ⟨by decide, c8_widen_left_bounded 67 (List.replicate 10 (1 : W)) (by decide)⟩
